import Mathlib

/-
Verification of the realtime transcription script `src/whispertest2.py`
(class SimpleRealtimeWhisper plus its `main` driver).

Shallow embedding conventions:
* a raw audio byte string is a `List Nat` (one entry per byte);
* the external transcription engine (`self.model.transcribe`, faster-whisper)
  is an opaque parameter of type `Transcriber`: it receives the normalized
  float waveform and either returns the list of segment texts or raises
  (modelled as `Except.error`);
* Python strings that the code inspects character by character (strip,
  concatenation, truthiness) are modelled as `List Char`;
* the processing thread's loop body (lines 95-116) is one `workerIter`;
  iterating it with `workerRun` models successive passes of the
  `while self.is_recording` loop while the flag stays true.
-/

set_option autoImplicit false

namespace WhisperTest

/-! ## Configuration constants (lines 15-18 and 92-93 of the source) -/

/-- `self.CHUNK = 1024` : frames per capture callback. -/
def CHUNK : Nat := 1024

/-- `self.CHANNELS = 1`. -/
def CHANNELS : Nat := 1

/-- `self.RATE = 16000` samples per second. -/
def RATE : Nat := 16000

/-- `pyaudio.paInt16` samples occupy two bytes each. -/
def bytesPerSample : Nat := 2

/-- `chunk_duration = 3.0` (line 92).  The float value is exactly 3. -/
def chunk_duration : Nat := 3

/-- `chunk_size = int(self.RATE * chunk_duration)` (line 93) `= 48000`.
Note the source compares this number against a BYTE count
(`len(audio_chunk)` where `audio_chunk` is a `bytes` value). -/
def chunk_size : Nat := RATE * chunk_duration

/-- One raw audio frame as delivered by the capture callback: a byte string. -/
abbrev Frame := List Nat

/-! ## The capture callback (lines 29-33) -/

/-- `pyaudio.paContinue` (its numeric value in pyaudio is 0). -/
def paContinue : Nat := 0

/-- Lines 29-33: `audio_callback(self, in_data, ...)`.
State touched: the queue `self.audio_buffer` (modelled as the list of queued
frames, oldest first) read under the flag `self.is_recording`.
The function body cannot raise: it only tests a boolean and `put`s into an
unbounded `queue.Queue`.  It returns `(in_data, pyaudio.paContinue)`. -/
def audio_callback (is_recording : Bool) (audio_buffer : List Frame) (in_data : Frame) :
    List Frame × (Frame × Nat) :=
  (if is_recording then audio_buffer ++ [in_data] else audio_buffer,
   (in_data, paContinue))

/-- A whole sequence of callback invocations, each with the value the
`is_recording` flag had at that moment, threaded through the queue. -/
def runCallbacks (events : List (Bool × Frame)) (audio_buffer : List Frame) : List Frame :=
  events.foldl (fun q e => (audio_callback e.1 q e.2).1) audio_buffer

/-! ## Byte decoding and normalization (lines 39-40) -/

/-- Decode one little-endian signed 16-bit sample from two bytes, as
`np.frombuffer(audio_data, dtype=np.int16)` does. -/
def int16val (lo hi : Nat) : Int :=
  let v : Nat := lo + 256 * hi
  if v < 32768 then (v : Int) else (v : Int) - 65536

/-- `np.frombuffer(audio_data, dtype=np.int16)` : consecutive byte pairs
become samples.  (On an odd byte count numpy raises instead; callers model
that separately.) -/
def bytesToInt16 : List Nat → List Int
  | [] => []
  | [_] => []
  | lo :: hi :: rest => int16val lo hi :: bytesToInt16 rest

/-- Line 40: `audio_float = audio_np.astype(np.float32) / 32768.0`.
Dividing an int16 by 2^15 is exact in float32, so rationals model it
faithfully. -/
def audio_float (audio_data : List Nat) : List ℚ :=
  (bytesToInt16 audio_data).map (fun v : Int => (v : ℚ) / 32768)

/-! ## Python string operations used by the result loop (lines 55-60) -/

/-- Whitespace as stripped by Python's `str.strip()` (restricted to the
ASCII whitespace that can occur in model output). -/
def wsp (c : Char) : Bool := c.isWhitespace

/-- Python `s.strip()`: drop whitespace from both ends. -/
def strip (l : List Char) : List Char :=
  ((l.dropWhile wsp).reverse.dropWhile wsp).reverse

/-- Lines 55-60:
`text = ""`, then for each segment
`if segment.text.strip(): text += segment.text.strip() + " "`,
finally `return text.strip()`. -/
def joinSegments (segments : List (List Char)) : List Char :=
  strip (segments.foldl
    (fun text s => if strip s = [] then text else text ++ strip s ++ [' ']) [])

/-! ## process_audio (lines 35-64) -/

/-- The opaque transcription engine `self.model.transcribe(audio_float,
language="ko", beam_size=1, best_of=1)`: from the normalized waveform it
either yields the segment texts in order, or raises. -/
abbrev Transcriber := List ℚ → Except String (List (List Char))

/-- Lines 35-64, instrumented: the result of `process_audio` paired with
whether the transcription engine was actually invoked on this chunk.

* an odd byte count makes `np.frombuffer` raise `ValueError` (line 39),
  which the `except` at line 62 turns into `None` - engine not invoked;
* line 43: `if len(audio_float) < self.RATE * 1.0: return None` - engine
  not invoked;
* a raise from the engine is caught at line 62 and becomes `None`;
* otherwise lines 55-60 join the segment texts. -/
def process_audioI (tr : Transcriber) (audio_data : List Nat) :
    Option (List Char) × Bool :=
  if audio_data.length % 2 = 1 then (none, false)
  else
    let af := audio_float audio_data
    if af.length < RATE then (none, false)
    else
      match tr af with
      | Except.error _ => (none, true)
      | Except.ok segments => (some (joinSegments segments), true)

/-- `process_audio` as the worker sees it: just the returned value
(`None` or the joined text). -/
def process_audio (tr : Transcriber) (audio_data : List Nat) : Option (List Char) :=
  (process_audioI tr audio_data).1

/-! ## The processing thread (lines 90-116) -/

/-- Line 110: `print(f"🕐 [{timestamp}] {text}")` - the printed line. -/
def formatLine (timestamp text : List Char) : List Char :=
  String.toList "🕐 [" ++ timestamp ++ String.toList "] " ++ text

/-- State of the processing thread together with everything it has emitted.

* `queue` - the frames currently in `self.audio_buffer`, oldest first;
* `audio_chunk` - the accumulation buffer `audio_chunk` (a byte string);
* `chunks` - every `process_data` slice passed to `process_audio` so far,
  in emission order;
* `printed` - every console line printed by line 110 so far;
* `sleeps` - how many times `time.sleep` has run inside the loop. -/
structure WorkerState where
  queue : List Frame
  audio_chunk : List Nat
  chunks : List (List Nat)
  printed : List (List Char)
  sleeps : Nat
deriving Repr, DecidableEq

/-- Lines 97-99: `if not self.audio_buffer.empty(): audio_chunk +=
self.audio_buffer.get_nowait()`.  The worker is the only consumer, so the
non-empty test guarantees `get_nowait` succeeds (and `queue.Empty` is never
raised, hence the `time.sleep(0.01)` at line 113 is unreachable). -/
def feedStep (s : WorkerState) : WorkerState :=
  match s.queue with
  | [] => s
  | f :: rest => { s with queue := rest, audio_chunk := s.audio_chunk ++ f }

/-- Lines 101-110: if at least `chunk_size` bytes are buffered, slice off
the first `chunk_size` bytes, keep the rest, transcribe the slice and,
when the result is a non-empty string, print one timestamped line. -/
def sliceStep (tr : Transcriber) (timestamp : List Char) (s : WorkerState) : WorkerState :=
  if chunk_size ≤ s.audio_chunk.length then
    let process_data := s.audio_chunk.take chunk_size
    let text := process_audio tr process_data
    { s with
      audio_chunk := s.audio_chunk.drop chunk_size,
      chunks := s.chunks ++ [process_data],
      printed :=
        match text with
        | some t => if t = [] then s.printed else s.printed ++ [formatLine timestamp t]
        | none => s.printed }
  else s

/-- One pass of the `while self.is_recording` loop body (lines 95-116),
taken while the flag is still true. -/
def workerIter (tr : Transcriber) (timestamp : List Char) (s : WorkerState) : WorkerState :=
  sliceStep tr timestamp (feedStep s)

/-- `n` consecutive passes of the loop. -/
def workerRun (tr : Transcriber) (timestamp : List Char) : Nat → WorkerState → WorkerState
  | 0, s => s
  | n + 1, s => workerRun tr timestamp n (workerIter tr timestamp s)

/-- The worker's state right after `start_recording`, with the frames it
is about to consume already queued: `audio_chunk = b""` (line 91), nothing
emitted yet. -/
def initState (frames : List Frame) : WorkerState :=
  { queue := frames, audio_chunk := [], chunks := [], printed := [], sleeps := 0 }

/-- The console line a given chunk contributes (lines 107-110): `some`
line when `process_audio` returns a non-empty text, otherwise nothing. -/
def lineOf (tr : Transcriber) (timestamp : List Char) (c : List Nat) : Option (List Char) :=
  match process_audio tr c with
  | some t => if t = [] then none else some (formatLine timestamp t)
  | none => none

/-! ## Session lifecycle (lines 66-81 and 122-134) -/

/-- Lifecycle-relevant state of a `SimpleRealtimeWhisper` object plus
counters of the hardware release calls that have been issued.
`has_p` / `has_stream` model `hasattr(self, 'p')` / `hasattr(self,
'stream')`; Python never deletes these attributes once set. -/
structure Session where
  is_recording : Bool
  has_p : Bool
  has_stream : Bool
  stream_stop_calls : Nat
  stream_close_calls : Nat
  p_terminate_calls : Nat
deriving Repr, DecidableEq

/-- The object as `__init__` leaves it (lines 10-27): no `p` or `stream`
attribute yet, `is_recording = False`, no release call issued. -/
def Session.initial : Session :=
  { is_recording := false, has_p := false, has_stream := false,
    stream_stop_calls := 0, stream_close_calls := 0, p_terminate_calls := 0 }

/-- Lines 66-81: `start_recording` creates `self.p`, opens `self.stream`,
sets `self.is_recording = True` and starts the stream and the worker. -/
def start_recording (s : Session) : Session :=
  { s with has_p := true, has_stream := true, is_recording := true }

/-- Lines 122-134: `stop_recording` clears the flag, then
`if hasattr(self, 'stream'): self.stream.stop_stream(); self.stream.close()`,
then `if hasattr(self, 'p'): self.p.terminate()`.  The attributes are never
removed, so the guards only protect against stop-before-start, not against
a second stop. -/
def stop_recording (s : Session) : Session :=
  let s1 := { s with is_recording := false }
  let s2 :=
    if s1.has_stream then
      { s1 with stream_stop_calls := s1.stream_stop_calls + 1,
                stream_close_calls := s1.stream_close_calls + 1 }
    else s1
  if s2.has_p then { s2 with p_terminate_calls := s2.p_terminate_calls + 1 } else s2

/-! ## main (lines 136-153) -/

/-- How the `try` body of `main` can end.  The body finishes with
`while True: time.sleep(0.1)`, so it never returns normally: either the
wait loop is interrupted (`KeyboardInterrupt`), or startup raises -
in `SimpleRealtimeWhisper()` itself (before `whisper` is bound, e.g. the
model fails to load) or inside `start_recording` (after `whisper` is
bound, e.g. the audio device is unavailable). -/
inductive RunScenario where
  | interrupted
  | initError (msg : String)
  | openError (msg : String)
deriving Repr, DecidableEq

/-- What a whole run of the process produced. -/
structure MainOutcome where
  exit_code : Nat
  stop_called : Bool
  error_printed : Bool
deriving Repr, DecidableEq

/-- Lines 136-156.  Every exception from the `try` body is caught
(`except KeyboardInterrupt` at 147, `except Exception` at 149), a message
is printed, the `finally` at 151-153 calls `stop_recording()` exactly when
`whisper` was bound, and `main` returns normally - so the interpreter
exits with code 0 in every scenario. -/
def main (r : RunScenario) : MainOutcome :=
  match r with
  | RunScenario.interrupted =>
      { exit_code := 0, stop_called := true, error_printed := false }
  | RunScenario.initError _ =>
      { exit_code := 0, stop_called := false, error_printed := true }
  | RunScenario.openError _ =>
      { exit_code := 0, stop_called := true, error_printed := true }

/-! ## Derived quantities used by the statements -/

/-- Total byte count of a list of byte strings. -/
def sumLen (l : List (List Nat)) : Nat := (l.map List.length).sum

/-- Bytes currently inside the pipeline (accumulator plus queued frames). -/
def bytesIn (s : WorkerState) : Nat := s.audio_chunk.length + sumLen s.queue

/-- Every byte the pipeline has seen, in order: already-emitted chunks,
then the accumulator, then the queued frames. -/
def content (s : WorkerState) : List Nat :=
  s.chunks.flatten ++ s.audio_chunk ++ s.queue.flatten

/-- The worker has nothing left to do: empty queue and an accumulator too
short to slice. -/
def Quiescent (s : WorkerState) : Prop :=
  s.queue = [] ∧ s.audio_chunk.length < chunk_size

/-- Iterations still needed before the worker goes quiescent. -/
def potential (s : WorkerState) : Nat :=
  s.queue.length + bytesIn s / chunk_size

/-- Modelled from the spec (section 6, console output contract): segments
"joined by single spaces".  Used only to compare the source's
`joinSegments` against the spec's wording. -/
def joinedBySingleSpaces : List (List Char) → List Char
  | [] => []
  | [x] => x
  | x :: y :: rest => x ++ ' ' :: joinedBySingleSpaces (y :: rest)

/-! ## Structural lemmas about the worker loop -/

theorem chunk_size_pos : 0 < chunk_size := by decide

theorem chunk_size_val : chunk_size = 48000 := by decide

theorem feedStep_queue (s : WorkerState) : (feedStep s).queue = s.queue.tail := by
  cases h : s.queue <;> simp [feedStep, h]

theorem feedStep_chunks (s : WorkerState) : (feedStep s).chunks = s.chunks := by
  cases h : s.queue <;> simp [feedStep, h]

theorem feedStep_printed (s : WorkerState) : (feedStep s).printed = s.printed := by
  cases h : s.queue <;> simp [feedStep, h]

theorem feedStep_sleeps (s : WorkerState) : (feedStep s).sleeps = s.sleeps := by
  cases h : s.queue <;> simp [feedStep, h]

theorem feedStep_audio (s : WorkerState) :
    (feedStep s).audio_chunk = s.audio_chunk ++ s.queue.headD [] := by
  cases h : s.queue <;> simp [feedStep, h]

theorem sliceStep_of_small {s : WorkerState} (tr : Transcriber) (ts : List Char)
    (h : s.audio_chunk.length < chunk_size) : sliceStep tr ts s = s := by
  simp [sliceStep, Nat.not_le.mpr h]

theorem sliceStep_of_big {s : WorkerState} (tr : Transcriber) (ts : List Char)
    (h : chunk_size ≤ s.audio_chunk.length) :
    sliceStep tr ts s =
      { s with
        audio_chunk := s.audio_chunk.drop chunk_size,
        chunks := s.chunks ++ [s.audio_chunk.take chunk_size],
        printed :=
          match process_audio tr (s.audio_chunk.take chunk_size) with
          | some t => if t = [] then s.printed else s.printed ++ [formatLine ts t]
          | none => s.printed } := by
  simp [sliceStep, h]

theorem sliceStep_queue (tr : Transcriber) (ts : List Char) (s : WorkerState) :
    (sliceStep tr ts s).queue = s.queue := by
  by_cases h : chunk_size ≤ s.audio_chunk.length
  · rw [sliceStep_of_big tr ts h]
  · rw [sliceStep_of_small tr ts (Nat.not_le.mp h)]

theorem sliceStep_sleeps (tr : Transcriber) (ts : List Char) (s : WorkerState) :
    (sliceStep tr ts s).sleeps = s.sleeps := by
  by_cases h : chunk_size ≤ s.audio_chunk.length
  · rw [sliceStep_of_big tr ts h]
  · rw [sliceStep_of_small tr ts (Nat.not_le.mp h)]

theorem workerIter_queue (tr : Transcriber) (ts : List Char) (s : WorkerState) :
    (workerIter tr ts s).queue = s.queue.tail := by
  rw [workerIter, sliceStep_queue, feedStep_queue]

theorem workerIter_sleeps (tr : Transcriber) (ts : List Char) (s : WorkerState) :
    (workerIter tr ts s).sleeps = s.sleeps := by
  rw [workerIter, sliceStep_sleeps, feedStep_sleeps]

theorem workerRun_sleeps (tr : Transcriber) (ts : List Char) (n : Nat) (s : WorkerState) :
    (workerRun tr ts n s).sleeps = s.sleeps := by
  induction n generalizing s with
  | zero => rfl
  | succ n ih => rw [workerRun, ih, workerIter_sleeps]

theorem workerRun_queue (tr : Transcriber) (ts : List Char) (n : Nat) (s : WorkerState) :
    (workerRun tr ts n s).queue = s.queue.drop n := by
  induction n generalizing s with
  | zero => rfl
  | succ n ih =>
      rw [workerRun, ih, workerIter_queue]
      cases s.queue <;> simp

/-! ### The content of the pipeline is preserved -/

theorem content_feedStep (s : WorkerState) : content (feedStep s) = content s := by
  cases h : s.queue with
  | nil => simp [feedStep, h]
  | cons f rest => simp [content, feedStep, h]

theorem content_sliceStep (tr : Transcriber) (ts : List Char) (s : WorkerState) :
    content (sliceStep tr ts s) = content s := by
  by_cases h : chunk_size ≤ s.audio_chunk.length
  · rw [sliceStep_of_big tr ts h]
    simp [content, List.append_assoc]
  · rw [sliceStep_of_small tr ts (Nat.not_le.mp h)]

theorem content_workerIter (tr : Transcriber) (ts : List Char) (s : WorkerState) :
    content (workerIter tr ts s) = content s := by
  rw [workerIter, content_sliceStep, content_feedStep]

theorem content_workerRun (tr : Transcriber) (ts : List Char) (n : Nat) (s : WorkerState) :
    content (workerRun tr ts n s) = content s := by
  induction n generalizing s with
  | zero => rfl
  | succ n ih => rw [workerRun, ih, content_workerIter]

/-! ### Every emitted chunk has exactly `chunk_size` bytes -/

/-- All chunks passed to `process_audio` so far have exactly the configured
size. -/
def GoodChunks (s : WorkerState) : Prop :=
  ∀ c ∈ s.chunks, c.length = chunk_size

theorem goodChunks_feedStep {s : WorkerState} (h : GoodChunks s) :
    GoodChunks (feedStep s) := by
  intro c hc
  rw [feedStep_chunks] at hc
  exact h c hc

theorem goodChunks_sliceStep {s : WorkerState} (tr : Transcriber) (ts : List Char)
    (h : GoodChunks s) : GoodChunks (sliceStep tr ts s) := by
  by_cases hb : chunk_size ≤ s.audio_chunk.length
  · rw [sliceStep_of_big tr ts hb]
    intro c hc
    simp only [List.mem_append, List.mem_singleton] at hc
    rcases hc with hc | hc
    · exact h c hc
    · subst hc
      simp [List.length_take, Nat.min_eq_left hb]
  · rw [sliceStep_of_small tr ts (Nat.not_le.mp hb)]
    exact h

theorem goodChunks_workerIter {s : WorkerState} (tr : Transcriber) (ts : List Char)
    (h : GoodChunks s) : GoodChunks (workerIter tr ts s) :=
  goodChunks_sliceStep tr ts (goodChunks_feedStep h)

theorem goodChunks_workerRun {s : WorkerState} (tr : Transcriber) (ts : List Char)
    (n : Nat) (h : GoodChunks s) : GoodChunks (workerRun tr ts n s) := by
  induction n generalizing s with
  | zero => exact h
  | succ n ih => exact ih (goodChunks_workerIter tr ts h)

theorem flatten_length_of_goodChunks {s : WorkerState} (h : GoodChunks s) :
    s.chunks.flatten.length = s.chunks.length * chunk_size := by
  have : ∀ l : List (List Nat), (∀ c ∈ l, c.length = chunk_size) →
      l.flatten.length = l.length * chunk_size := by
    intro l
    induction l with
    | nil => intro _; simp
    | cons x xs ih =>
        intro hx
        simp only [List.flatten_cons, List.length_append, List.length_cons]
        rw [hx x (by simp), ih (fun c hc => hx c (by simp [hc]))]
        ring
  exact this s.chunks h

/-! ### Termination: the loop goes quiescent within `potential` passes -/

theorem bytesIn_feedStep (s : WorkerState) : bytesIn (feedStep s) = bytesIn s := by
  cases h : s.queue with
  | nil => simp [feedStep, h]
  | cons f rest =>
      simp only [bytesIn, feedStep, h, sumLen, List.map_cons, List.sum_cons,
        List.length_append]
      omega

theorem quiescent_workerIter {s : WorkerState} (tr : Transcriber) (ts : List Char)
    (h : Quiescent s) : workerIter tr ts s = s := by
  obtain ⟨hq, hl⟩ := h
  have hf : feedStep s = s := by simp [feedStep, hq]
  rw [workerIter, hf, sliceStep_of_small tr ts hl]

theorem quiescent_workerRun {s : WorkerState} (tr : Transcriber) (ts : List Char)
    (n : Nat) (h : Quiescent s) : workerRun tr ts n s = s := by
  induction n with
  | zero => rfl
  | succ n ih => rw [workerRun, quiescent_workerIter tr ts h, ih]

theorem div_sub_self_div {a c : Nat} (hc : 0 < c) (h : c ≤ a) :
    (a - c) / c = a / c - 1 := by
  have h2 : (a - c + c) / c = (a - c) / c + 1 := Nat.add_div_right _ hc
  rw [Nat.sub_add_cancel h] at h2
  rw [h2, Nat.add_sub_cancel]

theorem potential_workerIter_lt {s : WorkerState} (tr : Transcriber) (ts : List Char)
    (h : ¬ Quiescent s) : potential (workerIter tr ts s) < potential s := by
  rw [workerIter]
  cases hq : s.queue with
  | nil =>
      have hbig : chunk_size ≤ s.audio_chunk.length := by
        by_contra hb
        exact h ⟨hq, Nat.not_le.mp hb⟩
      have hf : feedStep s = s := by simp [feedStep, hq]
      rw [hf, sliceStep_of_big tr ts hbig]
      have h1 : (s.audio_chunk.length - chunk_size) / chunk_size =
          s.audio_chunk.length / chunk_size - 1 :=
        div_sub_self_div chunk_size_pos hbig
      have h2 : 1 ≤ s.audio_chunk.length / chunk_size :=
        (Nat.one_le_div_iff chunk_size_pos).mpr hbig
      have hpl : potential
          { s with
            audio_chunk := s.audio_chunk.drop chunk_size,
            chunks := s.chunks ++ [s.audio_chunk.take chunk_size],
            printed :=
              match process_audio tr (s.audio_chunk.take chunk_size) with
              | some t => if t = [] then s.printed else s.printed ++ [formatLine ts t]
              | none => s.printed } =
          (s.audio_chunk.length - chunk_size) / chunk_size := by
        simp [potential, bytesIn, hq, sumLen, List.length_drop]
      have hpr : potential s = s.audio_chunk.length / chunk_size := by
        simp [potential, bytesIn, hq, sumLen]
      rw [hpl, hpr, h1]
      exact Nat.sub_lt (Nat.lt_of_lt_of_le Nat.one_pos h2) Nat.one_pos
  | cons f rest =>
      have hbf : bytesIn (feedStep s) = bytesIn s := bytesIn_feedStep s
      have hqf : (feedStep s).queue = rest := by rw [feedStep_queue, hq]; rfl
      have hps : potential s = rest.length + 1 + bytesIn s / chunk_size := by
        rw [potential, hq, List.length_cons]
      by_cases hbig : chunk_size ≤ (feedStep s).audio_chunk.length
      · rw [sliceStep_of_big tr ts hbig]
        have hnum : (feedStep s).audio_chunk.length - chunk_size + sumLen rest =
            bytesIn s - chunk_size := by
          have : (feedStep s).audio_chunk.length + sumLen rest = bytesIn s := by
            rw [← hbf, bytesIn, hqf]
          omega
        have hpl : potential
            { feedStep s with
              audio_chunk := (feedStep s).audio_chunk.drop chunk_size,
              chunks := (feedStep s).chunks ++ [(feedStep s).audio_chunk.take chunk_size],
              printed :=
                match process_audio tr ((feedStep s).audio_chunk.take chunk_size) with
                | some t => if t = [] then (feedStep s).printed
                            else (feedStep s).printed ++ [formatLine ts t]
                | none => (feedStep s).printed } =
            rest.length + (bytesIn s - chunk_size) / chunk_size := by
          rw [potential, bytesIn]
          simp only [hqf, List.length_drop]
          rw [hnum]
        rw [hpl, hps]
        have hmono : (bytesIn s - chunk_size) / chunk_size ≤ bytesIn s / chunk_size :=
          Nat.div_le_div_right (Nat.sub_le _ _)
        rw [Nat.add_right_comm]
        exact Nat.lt_succ_of_le (Nat.add_le_add_left hmono _)
      · rw [sliceStep_of_small tr ts (Nat.not_le.mp hbig)]
        have hpf : potential (feedStep s) = rest.length + bytesIn s / chunk_size := by
          rw [potential, hbf, hqf]
        rw [hpf, hps, Nat.add_right_comm]
        exact Nat.lt_succ_of_le (Nat.le_refl _)

theorem quiescent_of_potential_le (tr : Transcriber) (ts : List Char) :
    ∀ (n : Nat) (s : WorkerState), potential s ≤ n → Quiescent (workerRun tr ts n s)
  | 0, s, h => by
      have h0 : potential s = 0 := Nat.le_zero.mp h
      rw [potential] at h0
      obtain ⟨hql, hb⟩ := Nat.eq_zero_of_add_eq_zero h0
      have hq : s.queue = [] := List.length_eq_zero.mp hql
      have hlt : bytesIn s < chunk_size := (Nat.div_eq_zero_iff chunk_size_pos).mp hb
      show Quiescent s
      refine ⟨hq, ?_⟩
      have hax : s.audio_chunk.length ≤ bytesIn s := Nat.le_add_right _ _
      exact Nat.lt_of_le_of_lt hax hlt
  | n + 1, s, h => by
      by_cases hqu : Quiescent s
      · rw [workerRun, quiescent_workerIter tr ts hqu,
          quiescent_workerRun tr ts n hqu]
        exact hqu
      · rw [workerRun]
        refine quiescent_of_potential_le tr ts n (workerIter tr ts s) ?_
        have := potential_workerIter_lt tr ts hqu
        omega

/-! ### Printed lines correspond one-to-one to transcribed chunks -/

/-- The console lines printed so far are exactly the lines contributed by
the chunks processed so far, in order. -/
def PrintedRel (tr : Transcriber) (ts : List Char) (s : WorkerState) : Prop :=
  s.printed = s.chunks.filterMap (lineOf tr ts)

theorem printedRel_feedStep {tr : Transcriber} {ts : List Char} {s : WorkerState}
    (h : PrintedRel tr ts s) : PrintedRel tr ts (feedStep s) := by
  rw [PrintedRel, feedStep_printed, feedStep_chunks]
  exact h

theorem printedRel_sliceStep {tr : Transcriber} {ts : List Char} {s : WorkerState}
    (h : PrintedRel tr ts s) : PrintedRel tr ts (sliceStep tr ts s) := by
  by_cases hb : chunk_size ≤ s.audio_chunk.length
  · rw [PrintedRel] at h ⊢
    rw [sliceStep_of_big tr ts hb]
    cases hpa : process_audio tr (s.audio_chunk.take chunk_size) with
    | none => simp [lineOf, hpa, h]
    | some t =>
        by_cases ht : t = []
        · simp [lineOf, hpa, ht, h]
        · simp [lineOf, hpa, ht, h]
  · rw [PrintedRel, sliceStep_of_small tr ts (Nat.not_le.mp hb)]
    exact h

theorem printedRel_workerRun (tr : Transcriber) (ts : List Char) (n : Nat)
    {s : WorkerState} (h : PrintedRel tr ts s) :
    PrintedRel tr ts (workerRun tr ts n s) := by
  induction n generalizing s with
  | zero => exact h
  | succ n ih =>
      rw [workerRun]
      exact ih (printedRel_sliceStep (printedRel_feedStep h))

theorem printedRel_initState (tr : Transcriber) (ts : List Char) (frames : List Frame) :
    PrintedRel tr ts (initState frames) := rfl

/-! ### Facts about process_audio -/

theorem bytesToInt16_length : ∀ l : List Nat, (bytesToInt16 l).length = l.length / 2
  | [] => rfl
  | [_] => by simp [bytesToInt16]
  | lo :: hi :: rest => by
      simp only [bytesToInt16, List.length_cons, bytesToInt16_length rest]
      omega

theorem audio_float_length (l : List Nat) : (audio_float l).length = l.length / 2 := by
  rw [audio_float, List.length_map, bytesToInt16_length]

/-- A chunk with fewer than `RATE` decoded samples is rejected by the
length floor (line 43) before the engine is ever invoked; an odd byte
count dies even earlier in `np.frombuffer`. -/
theorem process_audioI_short {tr : Transcriber} {c : List Nat}
    (h : (bytesToInt16 c).length < RATE) : process_audioI tr c = (none, false) := by
  rw [process_audioI]
  by_cases hodd : c.length % 2 = 1
  · rw [if_pos hodd]
  · rw [if_neg hodd]
    have hlen : (audio_float c).length < RATE := by
      rw [audio_float, List.length_map]
      exact h
    simp [hlen]

/-- An engine failure is swallowed: `process_audio` returns `None`
(lines 62-64), whatever the chunk was. -/
theorem process_audio_of_error {tr : Transcriber} {c : List Nat} {e : String}
    (h : tr (audio_float c) = Except.error e) : process_audio tr c = none := by
  rw [process_audio, process_audioI]
  by_cases hodd : c.length % 2 = 1
  · rw [if_pos hodd]
  · rw [if_neg hodd]
    by_cases hlen : (audio_float c).length < RATE
    · simp only [if_pos hlen]
    · simp only [if_neg hlen, h]

theorem lineOf_of_error {tr : Transcriber} {ts : List Char} {c : List Nat} {e : String}
    (h : tr (audio_float c) = Except.error e) : lineOf tr ts c = none := by
  rw [lineOf, process_audio_of_error h]

/-- The success path of `process_audio` (lines 39-60). -/
theorem process_audio_of_ok {tr : Transcriber} {c : List Nat} {segs : List (List Char)}
    (hev : c.length % 2 = 0) (hlen : RATE ≤ (audio_float c).length)
    (h : tr (audio_float c) = Except.ok segs) :
    process_audio tr c = some (joinSegments segs) := by
  rw [process_audio, process_audioI]
  rw [if_neg (by omega)]
  simp only [if_neg (Nat.not_lt.mpr hlen), h]

/-! ### Facts about Python string stripping and the segment join -/

theorem strip_eq_rdropWhile (l : List Char) :
    strip l = List.rdropWhile wsp (l.dropWhile wsp) := rfl

theorem head?_dropWhile_wsp : ∀ (l : List Char) {c : Char},
    (l.dropWhile wsp).head? = some c → wsp c = false := by
  intro l
  induction l with
  | nil => intro c h; simp [List.dropWhile] at h
  | cons x xs ih =>
      intro c h
      by_cases hx : wsp x = true
      · rw [List.dropWhile_cons, if_pos hx] at h
        exact ih h
      · rw [List.dropWhile_cons, if_neg hx] at h
        rw [List.head?_cons, Option.some_inj] at h
        subst h
        exact Bool.not_eq_true _ ▸ hx

/-- Both ends of a list carry no strippable whitespace. -/
def endsOk (l : List Char) : Prop :=
  (∀ c, l.head? = some c → wsp c = false) ∧ (∀ c, l.getLast? = some c → wsp c = false)

theorem strip_endsOk (s : List Char) : endsOk (strip s) := by
  constructor
  · intro c hc
    have hne : strip s ≠ [] := by
      intro h0
      rw [h0] at hc
      cases hc
    obtain ⟨w, hw⟩ : ∃ w, s.dropWhile wsp = strip s ++ w := by
      obtain ⟨t, ht⟩ := List.dropWhile_suffix (l := (s.dropWhile wsp).reverse) wsp
      refine ⟨t.reverse, ?_⟩
      have := congrArg List.reverse ht
      rw [List.reverse_append, List.reverse_reverse] at this
      rw [strip_eq_rdropWhile, List.rdropWhile]
      exact this.symm
    have hh : (s.dropWhile wsp).head? = some c := by
      rw [hw, List.head?_append_of_ne_nil _ hne]
      exact hc
    exact head?_dropWhile_wsp s hh
  · intro c hc
    have hne : strip s ≠ [] := by
      intro h0
      rw [h0] at hc
      cases hc
    rw [strip_eq_rdropWhile] at hc hne
    rw [List.getLast?_eq_getLast_of_ne_nil hne, Option.some_inj] at hc
    have := List.rdropWhile_last_not wsp (s.dropWhile wsp) hne
    rw [hc] at this
    exact Bool.not_eq_true _ ▸ this

theorem strip_append_space {X : List Char} (hX : endsOk X) : strip (X ++ [' ']) = X := by
  cases X with
  | nil => decide
  | cons x xs =>
      have hx : wsp x = false := hX.1 x rfl
      have hlastq : ∀ c, (x :: xs).getLast? = some c → wsp c = false := hX.2
      rw [strip_eq_rdropWhile]
      have h1 : List.dropWhile wsp ((x :: xs) ++ [' ']) = (x :: xs) ++ [' '] := by
        rw [List.cons_append, List.dropWhile_cons, if_neg (by simp [hx])]
      rw [h1, List.rdropWhile_concat_pos wsp (x :: xs) ' ' (by decide)]
      rw [List.rdropWhile_eq_self_iff]
      intro hl
      have := hlastq _ (List.getLast?_eq_getLast_of_ne_nil hl)
      simp [this]

/-- The non-empty stripped segment texts, in order (the ones line 57 keeps). -/
def nonEmptyStrips (segments : List (List Char)) : List (List Char) :=
  (segments.map strip).filter (fun x => !x.isEmpty)

/-- Each kept piece with the trailing space the loop at lines 56-58 appends. -/
def segPiece (s : List Char) : List Char :=
  if strip s = [] then [] else strip s ++ [' ']

theorem foldl_join_eq_flatten (segments : List (List Char)) :
    ∀ acc : List Char,
      segments.foldl
        (fun text s => if strip s = [] then text else text ++ strip s ++ [' ']) acc =
      acc ++ (segments.map segPiece).flatten := by
  induction segments with
  | nil => intro acc; simp
  | cons s rest ih =>
      intro acc
      rw [List.foldl_cons, ih, List.map_cons, List.flatten_cons]
      by_cases hs : strip s = []
      · simp [segPiece, hs]
      · simp [segPiece, hs, List.append_assoc]

theorem flatten_segPieces (segments : List (List Char)) :
    (segments.map segPiece).flatten =
      ((nonEmptyStrips segments).map (fun x => x ++ [' '])).flatten := by
  induction segments with
  | nil => rfl
  | cons s rest ih =>
      have hcons : nonEmptyStrips (s :: rest) =
          if strip s = [] then nonEmptyStrips rest
          else strip s :: nonEmptyStrips rest := by
        rw [nonEmptyStrips, List.map_cons, List.filter_cons]
        by_cases hs : strip s = []
        · rw [if_pos hs, if_neg (by simp [hs])]
          rfl
        · rw [if_neg hs, if_pos (by simp [hs])]
          rfl
      rw [List.map_cons, List.flatten_cons, ih, hcons]
      by_cases hs : strip s = []
      · rw [if_pos hs]
        simp [segPiece, hs]
      · rw [if_neg hs, List.map_cons, List.flatten_cons]
        simp [segPiece, hs]

theorem flatten_withTrail_eq_joined : ∀ (L : List (List Char)), L ≠ [] →
    (L.map (fun x => x ++ [' '])).flatten = joinedBySingleSpaces L ++ [' ']
  | [], h => absurd rfl h
  | [x], _ => by simp [joinedBySingleSpaces]
  | x :: y :: rest, _ => by
      rw [List.map_cons, List.flatten_cons,
        flatten_withTrail_eq_joined (y :: rest) (by simp), joinedBySingleSpaces]
      simp [List.append_assoc]

theorem joined_ne_nil : ∀ {L : List (List Char)}, (∀ t ∈ L, t ≠ []) → L ≠ [] →
    joinedBySingleSpaces L ≠ [] := by
  intro L hL hne
  cases L with
  | nil => exact absurd rfl hne
  | cons x rest =>
      cases rest with
      | nil => exact hL x (by simp)
      | cons y rest2 =>
          rw [joinedBySingleSpaces]
          intro h0
          have := List.append_eq_nil.mp h0
          cases this.2

theorem endsOk_joined : ∀ {L : List (List Char)},
    (∀ t ∈ L, t ≠ [] ∧ endsOk t) → endsOk (joinedBySingleSpaces L) := by
  intro L
  induction L with
  | nil =>
      intro _
      constructor <;> intro c hc <;> cases hc
  | cons x rest ih =>
      intro hL
      cases rest with
      | nil => exact (hL x (by simp)).2
      | cons y rest2 =>
          have hx := hL x (by simp)
          have hrest : ∀ t ∈ y :: rest2, t ≠ [] ∧ endsOk t := by
            intro t ht
            exact hL t (by simp [ht])
          have hJ := ih hrest
          have hJne : joinedBySingleSpaces (y :: rest2) ≠ [] :=
            joined_ne_nil (fun t ht => (hrest t ht).1) (by simp)
          rw [joinedBySingleSpaces]
          constructor
          · intro c hc
            rw [List.head?_append_of_ne_nil _ hx.1] at hc
            exact hx.2.1 c hc
          · intro c hc
            rw [List.getLast?_append_of_ne_nil _ (by simp)] at hc
            cases hJc : joinedBySingleSpaces (y :: rest2) with
            | nil => exact absurd hJc hJne
            | cons j js =>
                rw [hJc, List.getLast?_cons_cons] at hc
                have := hJ.2 c
                rw [hJc] at this
                exact this hc

theorem mem_nonEmptyStrips {segments : List (List Char)} {t : List Char}
    (ht : t ∈ nonEmptyStrips segments) : t ≠ [] ∧ endsOk t := by
  rw [nonEmptyStrips] at ht
  have h1 := List.of_mem_filter ht
  have h2 := List.mem_of_mem_filter ht
  obtain ⟨u, _, hu⟩ := List.mem_map.mp h2
  refine ⟨?_, ?_⟩
  · intro h0
    rw [h0] at h1
    cases h1
  · rw [← hu]
    exact strip_endsOk u

/-- The source's accumulate-then-strip loop (lines 55-60) produces exactly
the non-empty stripped segment texts joined by single spaces. -/
theorem joinSegments_eq_joined (segments : List (List Char)) :
    joinSegments segments = joinedBySingleSpaces (nonEmptyStrips segments) := by
  rw [joinSegments, foldl_join_eq_flatten, List.nil_append, flatten_segPieces]
  cases hL : nonEmptyStrips segments with
  | nil => rfl
  | cons x xs =>
      rw [← hL, flatten_withTrail_eq_joined _ (by rw [hL]; simp)]
      exact strip_append_space
        (endsOk_joined (fun t ht => mem_nonEmptyStrips ht))

/-! ## Concrete fixtures used by closed statements -/

/-- A transcription engine that always raises. -/
def trBoom : Transcriber := fun _ => Except.error "boom"

/-- A transcription engine that always returns the single segment "hello". -/
def trHello : Transcriber := fun _ => Except.ok [String.toList "hello"]

/-- A concrete timestamp string. -/
def ts12 : List Char := String.toList "12:00:00"

/-- A worker state whose accumulator holds exactly 48000 zero bytes, with
an empty queue and nothing emitted yet. -/
def s48 : WorkerState :=
  { queue := [], audio_chunk := List.replicate 48000 0, chunks := [],
    printed := [], sleeps := 0 }

theorem s48_big : chunk_size ≤ s48.audio_chunk.length := by
  show chunk_size ≤ (List.replicate 48000 (0 : Nat)).length
  rw [List.length_replicate, chunk_size, RATE, chunk_duration]

theorem s48_take : s48.audio_chunk.take chunk_size = List.replicate 48000 0 := by
  show (List.replicate 48000 (0 : Nat)).take chunk_size = List.replicate 48000 0
  have hmin : min chunk_size 48000 = 48000 := by decide
  rw [List.take_replicate, hmin]

theorem s48_take_even : (s48.audio_chunk.take chunk_size).length % 2 = 0 := by
  rw [s48_take, List.length_replicate]

theorem s48_sample_count : RATE ≤ (audio_float (s48.audio_chunk.take chunk_size)).length := by
  rw [audio_float_length, s48_take, List.length_replicate, RATE]
  decide

/-! ## The claims -/

/-- C1: the source's comments intend a 3-second window (`chunk_duration =
3.0`, "process every 3 seconds"), and 3 seconds of 16 kHz mono 16-bit
audio is `RATE * CHANNELS * bytesPerSample * chunk_duration = 96000`
bytes; but line 93 computes `chunk_size = int(RATE * chunk_duration) =
48000` and compares it against a byte count, so every chunk the loop
slices off holds 48000 bytes = 1.5 seconds of audio, not 3. -/
theorem c1_chunk_is_half_the_claimed_size :
    chunk_size = 48000 ∧
    RATE * CHANNELS * bytesPerSample * chunk_duration = 96000 ∧
    chunk_size ≠ RATE * CHANNELS * bytesPerSample * chunk_duration ∧
    (workerIter trBoom [] s48).chunks = [List.replicate 48000 0] := by
  refine ⟨by decide, by decide, by decide, ?_⟩
  have hf : feedStep s48 = s48 := rfl
  rw [workerIter, hf, sliceStep_of_big trBoom [] s48_big]
  show s48.chunks ++ [s48.audio_chunk.take chunk_size] = [List.replicate 48000 0]
  rw [s48_take]
  rfl

/-- C2: feeding any frame sequence whose total byte length is `k` times
the configured chunk size through the worker loop (lines 95-104) emits
exactly `k` chunks, each of exactly `chunk_size` bytes, whose
concatenation in emission order is exactly the concatenation of the fed
frames; the accumulator and the queue end empty. -/
theorem c2_lossless_chunking (tr : Transcriber) (ts : List Char)
    (frames : List Frame) (k : Nat) (h : sumLen frames = k * chunk_size) :
    (workerRun tr ts (frames.length + k) (initState frames)).chunks.length = k ∧
    (∀ c ∈ (workerRun tr ts (frames.length + k) (initState frames)).chunks,
        c.length = chunk_size) ∧
    (workerRun tr ts (frames.length + k) (initState frames)).chunks.flatten =
      frames.flatten ∧
    (workerRun tr ts (frames.length + k) (initState frames)).audio_chunk = [] ∧
    (workerRun tr ts (frames.length + k) (initState frames)).queue = [] := by
  set s := workerRun tr ts (frames.length + k) (initState frames) with hs
  have hpot : potential (initState frames) = frames.length + k := by
    rw [potential]
    have h1 : (initState frames).queue.length = frames.length := rfl
    have h2 : bytesIn (initState frames) = sumLen frames := by
      simp [bytesIn, initState]
    rw [h1, h2, h, Nat.mul_div_cancel _ chunk_size_pos]
  have hquie : Quiescent s := by
    rw [hs]
    exact quiescent_of_potential_le tr ts _ _ (le_of_eq hpot)
  have hgood : GoodChunks s := by
    rw [hs]
    exact goodChunks_workerRun tr ts _ (by intro c hc; cases hc)
  have hcont : content s = frames.flatten := by
    rw [hs, content_workerRun]
    simp [content, initState]
  obtain ⟨hqnil, hlt⟩ := hquie
  have hjoin2 : s.chunks.flatten ++ s.audio_chunk = frames.flatten := by
    rw [← hcont, content, hqnil]
    simp
  have hlens : s.chunks.length * chunk_size + s.audio_chunk.length = k * chunk_size := by
    have hlen := congrArg List.length hjoin2
    rw [List.length_append, flatten_length_of_goodChunks hgood,
      List.length_flatten] at hlen
    rw [hlen]
    rw [← h]
    rfl
  have hk : s.chunks.length = k := by
    have hdiv : (s.chunks.length * chunk_size + s.audio_chunk.length) / chunk_size =
        s.chunks.length := by
      rw [Nat.mul_comm, Nat.mul_add_div chunk_size_pos, Nat.div_eq_of_lt hlt,
        Nat.add_zero]
    rw [hlens, Nat.mul_div_cancel _ chunk_size_pos] at hdiv
    exact hdiv.symm
  have ha0 : s.audio_chunk.length = 0 := by
    rw [hk] at hlens
    omega
  have ha : s.audio_chunk = [] := List.length_eq_zero.mp ha0
  refine ⟨hk, hgood, ?_, ha, hqnil⟩
  rw [ha, List.append_nil] at hjoin2
  exact hjoin2

/-- C2 witness: a single frame of 48000 bytes is one full chunk. -/
theorem c2_lossless_chunking_witness :
    sumLen [List.replicate 48000 (0 : Nat)] = 1 * chunk_size ∧
    (workerRun trBoom [] ([List.replicate 48000 (0 : Nat)].length + 1)
      (initState [List.replicate 48000 (0 : Nat)])).chunks.length = 1 := by
  have h : sumLen [List.replicate 48000 (0 : Nat)] = 1 * chunk_size := by
    show ([List.replicate 48000 (0 : Nat)].map List.length).sum = 1 * chunk_size
    rw [List.map_cons, List.map_nil, List.length_replicate, List.sum_cons,
      List.sum_nil, chunk_size, RATE, chunk_duration]
    decide
  exact ⟨h, (c2_lossless_chunking trBoom [] _ 1 h).1⟩

/-- C3: after every pass of the worker loop, the bytes in the accumulator
plus `chunk_size` bytes per completed chunk plus the bytes still queued
account exactly for every byte of every frame fed - i.e. accumulator
bytes = bytes fed so far - completed chunks x chunk size, at every step. -/
theorem c3_accumulator_invariant (tr : Transcriber) (ts : List Char)
    (frames : List Frame) (n : Nat) :
    (workerRun tr ts n (initState frames)).audio_chunk.length +
      (workerRun tr ts n (initState frames)).chunks.length * chunk_size +
      sumLen (workerRun tr ts n (initState frames)).queue = sumLen frames := by
  set s := workerRun tr ts n (initState frames) with hs
  have hgood : GoodChunks s := by
    rw [hs]
    exact goodChunks_workerRun tr ts _ (by intro c hc; cases hc)
  have hcont : content s = frames.flatten := by
    rw [hs, content_workerRun]
    simp [content, initState]
  have hlen := congrArg List.length hcont
  rw [content, List.length_append, List.length_append,
    flatten_length_of_goodChunks hgood, List.length_flatten,
    List.length_flatten] at hlen
  have h1 : sumLen s.queue = (s.queue.map List.length).sum := rfl
  have h2 : sumLen frames = (frames.map List.length).sum := rfl
  omega

/-- C5: an exception raised by the transcription engine is caught inside
`process_audio` (lines 62-64), which returns no transcript; the worker
loop's printed lines are always exactly the per-chunk contributions, so a
failing chunk contributes nothing while every other chunk is still
processed, for any number of further loop passes. -/
theorem c5_engine_failure_contained (tr : Transcriber) (ts : List Char) :
    (∀ (c : List Nat) (e : String), tr (audio_float c) = Except.error e →
        process_audio tr c = none ∧ lineOf tr ts c = none) ∧
    (∀ (n : Nat) (frames : List Frame),
        (workerRun tr ts n (initState frames)).printed =
          (workerRun tr ts n (initState frames)).chunks.filterMap (lineOf tr ts)) := by
  constructor
  · intro c e he
    exact ⟨process_audio_of_error he, lineOf_of_error he⟩
  · intro n frames
    exact printedRel_workerRun tr ts n (printedRel_initState tr ts frames)

/-- C5 witness: a concrete always-failing engine yields no transcript and
no printed line, and the run-level accounting holds on a concrete run. -/
theorem c5_engine_failure_contained_witness :
    trBoom (audio_float []) = Except.error "boom" ∧
    process_audio trBoom [] = none ∧
    lineOf trBoom [] [] = none ∧
    (workerRun trBoom [] 2 (initState [[0, 1]])).printed =
      (workerRun trBoom [] 2 (initState [[0, 1]])).chunks.filterMap (lineOf trBoom []) := by
  refine ⟨rfl, ?_, ?_, ?_⟩
  · exact ((c5_engine_failure_contained trBoom []).1 [] "boom" rfl).1
  · exact ((c5_engine_failure_contained trBoom []).1 [] "boom" rfl).2
  · exact (c5_engine_failure_contained trBoom []).2 2 [[0, 1]]

/-- C4 counterexample: after `start_recording`, a second `stop_recording`
is not a no-op - the `hasattr` guards still pass, so `stop_stream`,
`close` and `terminate` are each issued a second time. -/
theorem c4_second_stop_not_noop :
    (stop_recording (stop_recording (start_recording Session.initial))).stream_close_calls
      = 2 ∧
    (stop_recording (stop_recording (start_recording Session.initial))).p_terminate_calls
      = 2 ∧
    stop_recording (stop_recording (start_recording Session.initial)) ≠
      stop_recording (start_recording Session.initial) := by
  decide

/-- C4 (amended): `stop_recording` twice after a session has started keeps
`is_recording` false, but the second call again invokes
`stream.stop_stream()`, `stream.close()` and `p.terminate()` on the
already-released handles, because the attributes are never removed; only
the flag handling is idempotent. -/
theorem c4_double_stop_rereleases :
    (stop_recording (start_recording Session.initial)).stream_stop_calls = 1 ∧
    (stop_recording (start_recording Session.initial)).stream_close_calls = 1 ∧
    (stop_recording (start_recording Session.initial)).p_terminate_calls = 1 ∧
    (stop_recording (stop_recording (start_recording Session.initial))).is_recording
      = false ∧
    (stop_recording (stop_recording (start_recording Session.initial))).stream_stop_calls
      = 2 ∧
    (stop_recording (stop_recording (start_recording Session.initial))).stream_close_calls
      = 2 ∧
    (stop_recording (stop_recording (start_recording Session.initial))).p_terminate_calls
      = 2 := by
  decide

/-- C6: the claim says every empty-queue poll sleeps, but the
`time.sleep(0.01)` at line 113 only runs when `queue.Empty` propagates,
and line 98 guards `get_nowait` behind a non-empty check (the worker is
the sole consumer, so the check is accurate): with an empty queue and a
short accumulator a loop pass is a complete no-op that sleeps zero times,
i.e. the worker busy-spins during silence. -/
theorem c6_empty_queue_never_sleeps (tr : Transcriber) (ts : List Char) :
    workerIter tr ts (initState []) = initState [] ∧
    (∀ s : WorkerState, (workerIter tr ts s).sleeps = s.sleeps) ∧
    (∀ n : Nat, (workerRun tr ts n (initState [])).sleeps = 0) := by
  refine ⟨?_, workerIter_sleeps tr ts, ?_⟩
  · exact quiescent_workerIter tr ts ⟨rfl, chunk_size_pos⟩
  · intro n
    rw [workerRun_sleeps]
    rfl

/-- C7: a chunk decoding to fewer than `RATE = 16000` samples (less than
one second of 16 kHz audio) makes `process_audio` return no transcript
without the transcription engine ever being invoked (line 43; an odd byte
count dies even earlier inside `np.frombuffer`). -/
theorem c7_short_chunk_never_transcribed (tr : Transcriber) (c : List Nat)
    (h : (bytesToInt16 c).length < RATE) :
    process_audioI tr c = (none, false) :=
  process_audioI_short h

/-- C7 witness: the empty chunk decodes to 0 samples and is rejected
without invoking the engine. -/
theorem c7_short_chunk_never_transcribed_witness :
    (bytesToInt16 []).length < RATE ∧ process_audioI trBoom [] = (none, false) :=
  ⟨by decide, c7_short_chunk_never_transcribed trBoom [] (by decide)⟩

/-- C8 counterexample: on a startup failure (model load or device open
raising), `main`'s `except Exception` handler catches it, prints a
message, and `main` returns normally - the process exits with code 0, not
the non-zero exit the claim requires. -/
theorem c8_startup_error_exits_zero :
    (main (RunScenario.initError "model failed to load")).exit_code = 0 ∧
    (main (RunScenario.openError "audio device unavailable")).exit_code = 0 := by
  decide

/-- C8 (amended): the process exits with code 0 in every scenario: after
an interrupt the `finally` block runs `stop_recording` and `main` returns;
after a startup error the exception is caught and printed (with teardown
run exactly when the object was already bound) and `main` still returns
normally, so the startup failure is not surfaced as a non-zero exit. -/
theorem c8_exit_code_always_zero :
    (∀ r : RunScenario, (main r).exit_code = 0) ∧
    (main RunScenario.interrupted).stop_called = true ∧
    (main RunScenario.interrupted).error_printed = false ∧
    (∀ m, (main (RunScenario.initError m)).error_printed = true ∧
      (main (RunScenario.initError m)).stop_called = false) ∧
    (∀ m, (main (RunScenario.openError m)).error_printed = true ∧
      (main (RunScenario.openError m)).stop_called = true) := by
  refine ⟨?_, rfl, rfl, fun m => ⟨rfl, rfl⟩, fun m => ⟨rfl, rfl⟩⟩
  intro r
  cases r <;> rfl

/-- Evaluation of one worker pass on a full accumulator with an engine
returning the single segment "hello": line 110 prints the clock-emoji
line. -/
theorem workerIter_s48_hello :
    (workerIter trHello ts12 s48).printed =
      [formatLine ts12 (joinSegments [String.toList "hello"])] := by
  have hf : feedStep s48 = s48 := rfl
  have hpa : process_audio trHello (s48.audio_chunk.take chunk_size) =
      some (joinSegments [String.toList "hello"]) :=
    process_audio_of_ok s48_take_even s48_sample_count rfl
  rw [workerIter, hf, sliceStep_of_big trHello ts12 s48_big, hpa]
  dsimp only
  rw [if_neg (by decide)]
  rfl

/-- C9 counterexample: with a successful transcript "hello" and timestamp
12:00:00 the worker prints the line `🕐 [12:00:00] hello` (line 110 has a
clock-emoji prefix), whose entire format is not `[HH:MM:SS] <text>` as the
claim states. -/
theorem c9_printed_line_has_emoji :
    (workerIter trHello ts12 s48).printed = [String.toList "🕐 [12:00:00] hello"] ∧
    String.toList "🕐 [12:00:00] hello" ≠ String.toList "[12:00:00] hello" := by
  refine ⟨?_, by decide⟩
  rw [workerIter_s48_hello]
  decide

/-- C9 (amended): when a slice succeeds, its transcript text is the
chunk's non-empty trimmed segments joined in order by single spaces, and
exactly one console line `🕐 [HH:MM:SS] <joined text>` is printed; when
the joined text is empty, nothing is printed. -/
theorem c9_one_line_per_transcript (tr : Transcriber) (ts : List Char)
    (s : WorkerState) (segs : List (List Char))
    (hq : s.queue = [])
    (hbig : chunk_size ≤ s.audio_chunk.length)
    (hev : (s.audio_chunk.take chunk_size).length % 2 = 0)
    (hlen : RATE ≤ (audio_float (s.audio_chunk.take chunk_size)).length)
    (htr : tr (audio_float (s.audio_chunk.take chunk_size)) = Except.ok segs) :
    joinSegments segs = joinedBySingleSpaces (nonEmptyStrips segs) ∧
    (joinSegments segs ≠ [] →
      (workerIter tr ts s).printed =
        s.printed ++ [String.toList "🕐 [" ++ ts ++ String.toList "] " ++
          joinSegments segs]) ∧
    (joinSegments segs = [] → (workerIter tr ts s).printed = s.printed) := by
  have hf : feedStep s = s := by simp [feedStep, hq]
  have hpa : process_audio tr (s.audio_chunk.take chunk_size) =
      some (joinSegments segs) :=
    process_audio_of_ok hev hlen htr
  refine ⟨joinSegments_eq_joined segs, ?_, ?_⟩
  · intro hne
    rw [workerIter, hf, sliceStep_of_big tr ts hbig, hpa]
    dsimp only
    rw [if_neg hne]
    rfl
  · intro hnil
    rw [workerIter, hf, sliceStep_of_big tr ts hbig, hpa]
    dsimp only
    rw [if_pos hnil]

/-- C9 witness: the amended statement evaluated on a full accumulator of
zero bytes and an engine returning "hello". -/
theorem c9_one_line_per_transcript_witness :
    chunk_size ≤ s48.audio_chunk.length ∧
    joinSegments [String.toList "hello"] ≠ [] ∧
    (workerIter trHello ts12 s48).printed =
      s48.printed ++ [String.toList "🕐 [" ++ ts12 ++ String.toList "] " ++
        joinSegments [String.toList "hello"]] := by
  refine ⟨s48_big, by decide, ?_⟩
  exact (c9_one_line_per_transcript trHello ts12 s48 [String.toList "hello"]
    rfl s48_big s48_take_even s48_sample_count rfl).2.1 (by decide)

/-- C10: the capture callback always returns `(in_data, paContinue)` (its
body cannot raise); with the recording flag cleared the frame is not
enqueued, and over any sequence of callback invocations the queue receives
exactly the frames whose invocation saw the flag set, in order - a frame
dropped while the flag was clear is never delivered later. -/
theorem c10_callback_contract :
    (∀ (is_rec : Bool) (buf : List Frame) (d : Frame),
        (audio_callback is_rec buf d).2 = (d, paContinue)) ∧
    (∀ (buf : List Frame) (d : Frame), (audio_callback false buf d).1 = buf) ∧
    (∀ (events : List (Bool × Frame)) (buf : List Frame),
        runCallbacks events buf =
          buf ++ (events.filter (fun e => e.1)).map (fun e => e.2)) := by
  refine ⟨fun _ _ _ => rfl, fun _ _ => rfl, ?_⟩
  intro events
  induction events with
  | nil => intro buf; simp [runCallbacks]
  | cons e es ih =>
      intro buf
      obtain ⟨flag, d⟩ := e
      cases flag
      · show runCallbacks es buf = _
        rw [ih buf]
        simp [List.filter_cons]
      · show runCallbacks es (buf ++ [d]) = _
        rw [ih (buf ++ [d])]
        simp [List.filter_cons]

end WhisperTest
